import Mathlib

/-!
Shallow embedding of the join-counter core of SOF3/boredphoton.

The repository contains two revisions of the same logic:
* `src/src/joins.rs`  — embedded below in namespace `Joins`
  (`GuildJoins::update_to_latest_hour`, `GuildJoins::add`, `GuildJoins::stat`,
  `Stat::is_abnormal`, `get_percentile`, `linterp`);
* `src/src/main.rs`   — embedded below in namespace `MainRev`
  (`GuildJoins::add` (fast path), `GuildJoins::add_mut` (slow path),
  `GuildJoins::stats`, `weighted_ind`, `Stats::is_abnormal`).

Modelling conventions:
* machine integers are `Nat`; `u32` additions that wrap in release builds
  (`current += delta`, `AtomicU32::fetch_add`, `iter().sum::<u32>()`) are
  written with an explicit `% 2 ^ 32`;
* `f64` arithmetic is modelled by `ℚ`.  Every number the claims touch
  (`u32` casts, the ratios 0, 1/4, 1/2, 3/4, 1, and the constants 2, 5) is
  a small dyadic rational on which the `f64` operations used by the source
  (add, sub, mul, trunc, fract, compare) are exact, so the model is faithful
  on the inputs of the claims.  The one divergence: `0.0 / 0.0` is `NaN` in
  `f64` but `0` in `ℚ`; it can only reach the unused `mean`/`average` fields
  (no anomaly rule reads them);
* panics (`assert!`, index out of bounds, `unwrap` on `None`) are modelled
  by `Option.none`; functions without a panicking path are total;
* the wall clock (`current_hour()`) is an input `now : ℕ` passed to every
  operation that reads it in the source.
-/

/-- `BACKLOG_SIZE` in joins.rs; `JOINS_BACKLOG_SIZE` in main.rs (both 720). -/
def BACKLOG_SIZE : ℕ := 720

/-- The persistent per-guild state, `struct GuildJoins` (identical fields in
both revisions: `current_hour: u64`, `log: VecDeque<Option<u32>>`,
`current: u32`; main.rs wraps `current` in an `AtomicU32`, joins.rs also
carries a `#[serde(skip)]` file path, which is not part of the counter
state). -/
structure GuildJoins where
  current_hour : ℕ
  log : List (Option ℕ)
  current : ℕ
deriving DecidableEq

/-- `fn linterp(l: f64, r: f64, k: f64) -> f64 { l * (1. - k) + r * k }`
from joins.rs. -/
def linterp (l r k : ℚ) : ℚ := l * (1 - k) + r * k

/-- `f64::trunc`: round toward zero. -/
def ratTrunc (q : ℚ) : ℤ := if q < 0 then ⌈q⌉ else ⌊q⌋

/-- `f64::fract`: `self - self.trunc()`. -/
def ratFract (q : ℚ) : ℚ := q - (ratTrunc q : ℚ)

/-- `fn get_percentile(slice: &[f64], ratio: f64) -> f64` from joins.rs.
An out-of-bounds index (a panic in Rust) is `none`. -/
def get_percentile (slice : List ℚ) (ratio : ℚ) : Option ℚ :=
  if slice.isEmpty then some 0
  else
    let position := linterp 0 ((slice.length - 1 : ℕ) : ℚ) ratio
    let low := (ratTrunc position).toNat
    let high := low + 1
    if slice.length ≤ high then slice[low]?
    else do
      let a ← slice[low]?
      let b ← slice[high]?
      some (linterp a b (ratFract position))

namespace Joins

/-- One iteration of the rollover in `update_to_latest_hour` (joins.rs):
`current_hour += 1; log.pop_front(); log.push_back(entry); current = 0`. -/
def rollOnce (entry : Option ℕ) (s : GuildJoins) : GuildJoins :=
  { current_hour := s.current_hour + 1
    log := s.log.drop 1 ++ [entry]
    current := 0 }

/-- The `while self.current_hour < now` loop of `update_to_latest_hour`,
with the number of remaining iterations made explicit. -/
def rollLoop (fillEntry : Option ℕ) : ℕ → GuildJoins → GuildJoins
  | 0, s => s
  | k + 1, s => rollLoop fillEntry k (rollOnce fillEntry s)

/-- `GuildJoins::update_to_latest_hour(&mut self, fill_with_none: bool)`
from joins.rs.  `assert!(self.current_hour <= now)` is `none` when it fires.
The first boundary crossed pushes `Some(self.current)`; every further
boundary pushes `None` when `fill_with_none` and `Some(0)` otherwise.
(The `need_save`/`self.save()` part is file I/O and does not change the
counter state.) -/
def update_to_latest_hour (fill_with_none : Bool) (now : ℕ) (s : GuildJoins) :
    Option GuildJoins :=
  if now < s.current_hour then none
  else if s.current_hour < now then
    let s1 := rollOnce (some s.current) s
    some (rollLoop (if fill_with_none then none else some 0)
      (now - s1.current_hour) s1)
  else some s

/-- `GuildJoins::add(&mut self, delta: u32)` from joins.rs:
`update_to_latest_hour(false)` then `self.current += delta`.  The source
returns `io::Result<()>`; we return the updated state. -/
def add (now delta : ℕ) (s : GuildJoins) : Option GuildJoins :=
  (update_to_latest_hour false now s).map
    fun t => { t with current := (t.current + delta) % (2 ^ 32) }

/-- `struct Stat` from joins.rs. -/
structure Stat where
  mean : ℚ
  max : ℚ
  uq : ℚ
  median : ℚ
  lq : ℚ
  min : ℚ
  n : ℕ
  current : ℕ
deriving DecidableEq

/-- The statistics computation inside `GuildJoins::stat` (joins.rs), after
its initial `update_to_latest_hour(false)` call: collect the `Some` entries
of the log, cast to `f64`, sort ascending, and build the `Stat` record. -/
def stat_core (s : GuildJoins) : Option Stat :=
  let data := List.insertionSort (· ≤ ·) ((s.log.filterMap id).map fun n => (n : ℚ))
  do
    let maxv ← get_percentile data 1
    let uqv ← get_percentile data (3 / 4)
    let medianv ← get_percentile data (1 / 2)
    let lqv ← get_percentile data (1 / 4)
    let minv ← get_percentile data 0
    some { mean := data.sum / (data.length : ℚ), max := maxv, uq := uqv,
           median := medianv, lq := lqv, min := minv,
           n := data.length, current := s.current }

/-- `GuildJoins::stat(&mut self)` from joins.rs: roll forward (with
`fill_with_none = false`), then compute the statistics. -/
def stat (now : ℕ) (s : GuildJoins) : Option (GuildJoins × Stat) := do
  let t ← update_to_latest_hour false now s
  let st ← stat_core t
  some (t, st)

/-- `Stat::is_abnormal` from joins.rs:
`if self.current <= 8 { return false; } (self.current as f64) > self.uq * 2. + 5.` -/
def Stat.is_abnormal (st : Stat) : Bool :=
  if st.current ≤ 8 then false
  else decide (st.uq * 2 + 5 < (st.current : ℚ))

end Joins

namespace MainRev

/-- `GuildJoins::add(&self, count: u32) -> Result<u32, ()>` from main.rs:
the fast path.  Fails (for escalation to `add_mut`) when the wall clock is
ahead of the stored hour; otherwise `fetch_add`s the count and returns the
value `fetch_add` yields, which is the previous value. -/
def add (now count : ℕ) (s : GuildJoins) : Option (GuildJoins × ℕ) :=
  if s.current_hour < now then none
  else some ({ s with current := (s.current + count) % (2 ^ 32) }, s.current)

/-- `GuildJoins::add_mut(&mut self, count: u32) -> u32` from main.rs: the
slow path.  On rollover it drains the `diff` oldest entries and extends with
`diff` `None`s (or rebuilds the whole log as `None`s when
`diff >= JOINS_BACKLOG_SIZE`), then overwrites the back entry with
`Some(*current)` and zeroes the live count; in every case it then adds
`count` and returns the post-increment value.  `self.current_hour` is never
written. -/
def add_mut (now count : ℕ) (s : GuildJoins) : GuildJoins × ℕ :=
  if s.current_hour < now then
    let diff := now - s.current_hour
    let log1 := if BACKLOG_SIZE ≤ diff then List.replicate BACKLOG_SIZE none
                else s.log.drop diff ++ List.replicate diff none
    let log2 := log1.dropLast ++ [some s.current]
    let cur2 := (0 + count) % (2 ^ 32)
    ({ current_hour := s.current_hour, log := log2, current := cur2 }, cur2)
  else
    let cur2 := (s.current + count) % (2 ^ 32)
    ({ current_hour := s.current_hour, log := s.log, current := cur2 }, cur2)

/-- `fn weighted_ind(sorted: &[u32], ind: f64) -> f64` from main.rs
(nested inside `GuildJoins::stats`).  `sorted[0]`, `last().unwrap()` and
the two direct indexings panic on out-of-bounds: modelled by `none`. -/
def weighted_ind (sorted : List ℕ) (ind : ℚ) : Option ℚ :=
  if ratTrunc ind < 0 then (sorted[0]? : Option ℕ).map fun x => (x : ℚ)
  else if ((sorted.length : ℚ) - 1) < (ratTrunc ind : ℚ) then
    (sorted.getLast?).map fun x => (x : ℚ)
  else do
    let a : ℕ ← sorted[(ratTrunc ind).toNat]?
    let b : ℕ ← sorted[(ratTrunc ind).toNat + 1]?
    some ((a : ℚ) * ratFract ind + (b : ℚ) * (1 - ratFract ind))

/-- `enum Stats` from main.rs. -/
inductive Stats where
  | Empty
  | Data (average lq median uq : ℚ)
deriving DecidableEq

/-- `GuildJoins::stats(&self)` from main.rs: collect the `Some` entries,
sort ascending, `Empty` when there are none, otherwise interpolated
quartiles via `weighted_ind`. -/
def stats (s : GuildJoins) : Option Stats :=
  let sorted := List.insertionSort (· ≤ ·) (s.log.filterMap id)
  if sorted.isEmpty then some Stats.Empty
  else
    let count : ℚ := sorted.length
    let sum : ℚ := ((sorted.sum % (2 ^ 32) : ℕ) : ℚ)
    do
      let lq ← weighted_ind sorted ((count - 1) * (1 / 4))
      let median ← weighted_ind sorted ((count - 1) * (1 / 2))
      let uq ← weighted_ind sorted ((count - 1) * (3 / 4))
      some (Stats.Data (sum / count) lq median uq)

/-- `Stats::is_abnormal(&self, current: u32)` from main.rs. -/
def Stats.is_abnormal (st : Stats) (current : ℕ) : Bool :=
  match st with
  | .Empty => false
  | .Data _ _ _ uq => decide (uq * 5 < (current : ℚ))

end MainRev

/-- The JSON value space used by the persisted per-guild records (the
fragment serde_json needs for `GuildJoins`: nonnegative integers, `null`,
arrays and string-keyed objects). -/
inductive Jval where
  | null
  | num (n : ℕ)
  | arr (elems : List Jval)
  | obj (fields : List (String × Jval))

/-- Serialization of one `Option<u32>` log entry (`None` is JSON `null`). -/
def encodeEntry : Option ℕ → Jval
  | none => Jval.null
  | some n => Jval.num n

/-- The serde-derived `Serialize` for `GuildJoins` (both revisions emit the
same record: `current_hour`, `log`, `current`; joins.rs skips its `path`
field).  This is the payload of `GuildJoins::save`. -/
def encodeGuildJoins (s : GuildJoins) : Jval :=
  Jval.obj [("current_hour", Jval.num s.current_hour),
            ("log", Jval.arr (s.log.map encodeEntry)),
            ("current", Jval.num s.current)]

/-- Deserialization of one log entry. -/
def decodeEntry : Jval → Option (Option ℕ)
  | Jval.null => some none
  | Jval.num n => some (some n)
  | _ => none

/-- Deserialization of the log array. -/
def decodeLog : List Jval → Option (List (Option ℕ))
  | [] => some []
  | j :: rest =>
    match decodeEntry j, decodeLog rest with
    | some e, some l => some (e :: l)
    | _, _ => none

/-- The serde-derived `Deserialize` for `GuildJoins`, on records of the
shape `save` emits (which is all the round-trip property needs; serde
additionally tolerates field reordering). -/
def decodeGuildJoins : Jval → Option GuildJoins
  | Jval.obj [("current_hour", Jval.num h), ("log", Jval.arr l),
              ("current", Jval.num c)] =>
    (decodeLog l).map fun lg => ⟨h, lg, c⟩
  | _ => none

/-- `GuildJoins::load` from main.rs: plain deserialization; any failure is
`None`. -/
def MainRev.load (j : Jval) : Option GuildJoins :=
  decodeGuildJoins j

/-- `GuildJoins::read` from joins.rs: deserialize, then
`update_to_latest_hour(true)` at the current wall-clock hour. -/
def Joins.read (j : Jval) (now : ℕ) : Option GuildJoins :=
  match decodeGuildJoins j with
  | none => none
  | some s => Joins.update_to_latest_hour true now s

/-- The spec's own words for the percentile computation, for comparison
with `get_percentile`: position `p × (n-1)`, interpolate between the order
statistics at the floor and ceil index, the fractional part weighting the
higher index. -/
def specPercentile (l : List ℚ) (p : ℚ) : ℚ :=
  let position := p * ((l.length - 1 : ℕ) : ℚ)
  let frac := position - (⌊position⌋ : ℚ)
  (l[(⌊position⌋).toNat]?).getD 0 * (1 - frac)
    + (l[(⌈position⌉).toNat]?).getD 0 * frac

set_option maxRecDepth 8000

/-! ### Helper lemmas -/

/-- The rollover loop advances the stored hour by exactly its iteration
count. -/
theorem rollLoop_current_hour (e : Option ℕ) :
    ∀ (k : ℕ) (s : GuildJoins),
      (Joins.rollLoop e k s).current_hour = s.current_hour + k := by
  intro k
  induction k with
  | zero => intro s; rfl
  | succ k ih =>
    intro s
    show (Joins.rollLoop e k (Joins.rollOnce e s)).current_hour = _
    rw [ih]
    simp [Joins.rollOnce]
    omega

/-- Closed form of the rollover loop when it does not wrap the whole
buffer: `k` iterations drop the `k` oldest entries and append `k` copies
of the fill entry. -/
theorem rollLoop_closed (e : Option ℕ) :
    ∀ (k : ℕ) (s : GuildJoins), k ≤ s.log.length → s.current = 0 →
      Joins.rollLoop e k s
        = ⟨s.current_hour + k, s.log.drop k ++ List.replicate k e, 0⟩ := by
  intro k
  induction k with
  | zero =>
    intro s _ hcur
    cases s
    simp_all [Joins.rollLoop]
  | succ k ih =>
    intro s hk _
    have hlen : 1 ≤ s.log.length := by omega
    show Joins.rollLoop e k (Joins.rollOnce e s) = _
    have hlen1 : (Joins.rollOnce e s).log.length = s.log.length := by
      simp [Joins.rollOnce]
      omega
    rw [ih (Joins.rollOnce e s) (by omega) rfl]
    simp only [Joins.rollOnce]
    have hdrop : (s.log.drop 1 ++ [e]).drop k = s.log.drop (k + 1) ++ [e] := by
      rw [List.drop_append_of_le_length (by simp; omega), List.drop_drop,
        Nat.add_comm 1 k]
    simp only [hdrop, GuildJoins.mk.injEq, List.append_assoc,
      List.singleton_append]
    refine ⟨by omega, ?_, trivial⟩
    rw [← List.replicate_succ]

/-- Closed form of the rollover loop when at least `log.length` boundaries
are crossed: every original entry has been evicted and the buffer holds
nothing but fill entries. -/
theorem rollLoop_full (e : Option ℕ) :
    ∀ (k : ℕ) (s : GuildJoins), 1 ≤ s.log.length → s.log.length ≤ k →
      s.current = 0 →
      Joins.rollLoop e k s
        = ⟨s.current_hour + k, List.replicate s.log.length e, 0⟩ := by
  intro k
  induction k with
  | zero => intro s h1 h2 _; omega
  | succ k ih =>
    intro s h1 h2 hcur
    show Joins.rollLoop e k (Joins.rollOnce e s) = _
    have hlen1 : (Joins.rollOnce e s).log.length = s.log.length := by
      simp [Joins.rollOnce]
      omega
    by_cases hk : s.log.length ≤ k
    · rw [ih (Joins.rollOnce e s) (by omega) (by omega) rfl]
      simp only [Joins.rollOnce, hlen1]
      simp [GuildJoins.mk.injEq]
      omega
    · have hkeq : s.log.length = k + 1 := by omega
      rw [rollLoop_closed e k (Joins.rollOnce e s) (by omega) rfl]
      simp only [Joins.rollOnce]
      have hdrop : (s.log.drop 1 ++ [e]).drop k = s.log.drop (k + 1) ++ [e] := by
        rw [List.drop_append_of_le_length (by simp; omega), List.drop_drop,
        Nat.add_comm 1 k]
      have hnil : s.log.drop (k + 1) = [] := by
        apply List.drop_eq_nil_of_le
        omega
      simp only [hdrop, hnil, List.nil_append, List.singleton_append,
        GuildJoins.mk.injEq, hkeq]
      refine ⟨by omega, ?_, trivial⟩
      rw [← List.replicate_succ]

/-- Decoding inverts the entry-wise encoding of the log. -/
theorem decodeLog_encode (l : List (Option ℕ)) :
    decodeLog (l.map encodeEntry) = some l := by
  induction l with
  | nil => rfl
  | cons a rest ih => cases a <;> simp [decodeLog, decodeEntry, encodeEntry, ih]

/-! ### C1 -/

/-- C1 (amended): rolling forward across `k` hour boundaries
(`1 ≤ k < BACKLOG`) from a full buffer evicts the `k` oldest entries and
appends `k` entries, keeping the length at BACKLOG and zeroing the live
count.  In joins.rs (`update_to_latest_hour`) the FIRST appended entry is
`Some(live_count)` and the remaining `k-1` are `None` on the load path
(`fill_with_none = true`) but `Some(0)` on the increment/query path
(`fill_with_none = false`).  In main.rs (`add_mut`) the `k-1` `None` gap
markers come first and `Some(live_count)` is the LAST appended entry (and
the stored hour index is left unchanged). -/
theorem roll_forward_characterization (s : GuildJoins) (k count : ℕ)
    (fill : Bool) (hk1 : 1 ≤ k) (hk2 : k < BACKLOG_SIZE)
    (hlen : s.log.length = BACKLOG_SIZE) :
    Joins.update_to_latest_hour fill (s.current_hour + k) s
        = some ⟨s.current_hour + k,
                s.log.drop k ++ (some s.current ::
                  List.replicate (k - 1) (if fill then none else some 0)), 0⟩
    ∧ (s.log.drop k ++ (some s.current ::
          List.replicate (k - 1) (if fill then none else some 0))).length
        = BACKLOG_SIZE
    ∧ MainRev.add_mut (s.current_hour + k) count s
        = (⟨s.current_hour,
            s.log.drop k ++ (List.replicate (k - 1) none ++ [some s.current]),
            count % 2 ^ 32⟩, count % 2 ^ 32) := by
  have hB : BACKLOG_SIZE = 720 := rfl
  refine ⟨?_, ?_, ?_⟩
  · have h1 : ¬ (s.current_hour + k < s.current_hour) := by omega
    have h2 : s.current_hour < s.current_hour + k := by omega
    simp only [Joins.update_to_latest_hour, h1, h2, if_true, if_false,
      ite_false, ite_true]
    have hone : (Joins.rollOnce (some s.current) s).current_hour
        = s.current_hour + 1 := rfl
    rw [hone]
    have hsub : s.current_hour + k - (s.current_hour + 1) = k - 1 := by omega
    rw [hsub]
    have hlen1 : (Joins.rollOnce (some s.current) s).log.length
        = s.log.length := by
      simp [Joins.rollOnce]
      omega
    rw [rollLoop_closed _ (k - 1) _ (by omega) rfl]
    simp only [Joins.rollOnce]
    have hdrop : (s.log.drop 1 ++ [some s.current]).drop (k - 1)
        = s.log.drop k ++ [some s.current] := by
      rw [List.drop_append_of_le_length (by simp; omega), List.drop_drop]
      congr 2
      omega
    simp only [hdrop, Option.some.injEq, GuildJoins.mk.injEq,
      List.append_assoc, List.singleton_append]
    exact ⟨by omega, trivial, trivial⟩
  · simp only [List.length_append, List.length_drop, List.length_cons,
      List.length_replicate]
    omega
  · have h2 : s.current_hour < s.current_hour + k := by omega
    simp only [MainRev.add_mut, h2, if_true, ite_true]
    have hsub : s.current_hour + k - s.current_hour = k := by omega
    rw [hsub]
    have h3 : ¬ BACKLOG_SIZE ≤ k := by omega
    simp only [h3, if_false, ite_false]
    have hrep : List.replicate k (none : Option ℕ)
        = List.replicate (k - 1) none ++ [none] := by
      conv_lhs => rw [show k = (k - 1) + 1 by omega]
      exact List.replicate_succ' _ _
    rw [hrep, ← List.append_assoc, List.dropLast_concat]
    simp [List.append_assoc, Nat.zero_add]

/-- C1 witness: the amended characterization at hour 0, a full all-`None`
buffer, live count 5, a 2-hour gap on the load path, delta 1. -/
theorem roll_forward_characterization_witness :
    Joins.update_to_latest_hour true (0 + 2) ⟨0, List.replicate 720 none, 5⟩
        = some ⟨0 + 2,
            (List.replicate 720 none).drop 2 ++ (some 5 ::
              List.replicate (2 - 1) (if true then none else some 0)), 0⟩
    ∧ ((List.replicate 720 (none : Option ℕ)).drop 2 ++ (some 5 ::
          List.replicate (2 - 1) (if true then none else some 0))).length
        = BACKLOG_SIZE
    ∧ MainRev.add_mut (0 + 2) 1 ⟨0, List.replicate 720 none, 5⟩
        = (⟨0, (List.replicate 720 none).drop 2 ++
              (List.replicate (2 - 1) none ++ [some 5]),
            1 % 2 ^ 32⟩, 1 % 2 ^ 32) :=
  roll_forward_characterization ⟨0, List.replicate 720 none, 5⟩ 2 1 true
    (by decide) (by decide) (by simp [BACKLOG_SIZE])

/-- C1 counterexample: the claim as stated says the `k - 1` trailing
appended entries are always `None` gap markers; on the increment/query path
(`fill_with_none = false`, the path taken by `GuildJoins::add` and
`GuildJoins::stat`) the code appends `Some(0)` instead.  With live count 5
and a 2-hour gap the newest slot ends up `Some(0)`, not `None`. -/
theorem roll_forward_counterexample :
    (Joins.update_to_latest_hour false 2 ⟨0, List.replicate 720 (some 7), 5⟩).map
        (fun t => t.log.getLast?) = some (some (some 0))
    ∧ some (some (some (0 : ℕ))) ≠ some (some (none : Option ℕ)) := by
  refine ⟨by decide, by decide⟩

/-! ### C2 -/

/-- C2 (code bug, main.rs): `add_mut` observed at wall-clock hour 1 on a
counter stored at hour 0 rewrites the history ring (the newest slot becomes
`Some(3)`, the old live count) and resets the live count, yet leaves
`current_hour` at 0 instead of advancing it to 1 — the ring is updated
while the hour index is left behind. -/
theorem hour_index_left_behind :
    (MainRev.add_mut 1 1 ⟨0, List.replicate 720 none, 3⟩).1.current_hour = 0
    ∧ (MainRev.add_mut 1 1 ⟨0, List.replicate 720 none, 3⟩).1.log
        = List.replicate 719 none ++ [some 3]
    ∧ List.replicate 719 (none : Option ℕ) ++ [some 3]
        ≠ List.replicate 720 none := by
  refine ⟨by decide, by decide, by decide⟩

/-! ### C4 -/

/-- C4 (amended): main.rs's fast path `add` fails (escalating to the slow
path) exactly when the stored hour is behind the wall clock; when it
succeeds it stores the incremented live count but RETURNS the
pre-increment value (`AtomicU32::fetch_add` yields the previous value).
The slow path `add_mut` returns the post-increment live count. -/
theorem increment_return_value :
    (∀ (now count : ℕ) (s : GuildJoins), s.current_hour < now →
        MainRev.add now count s = none)
    ∧ (∀ (now count : ℕ) (s : GuildJoins), ¬ s.current_hour < now →
        MainRev.add now count s
          = some ({ s with current := (s.current + count) % 2 ^ 32 },
                  s.current))
    ∧ (∀ (now count : ℕ) (s : GuildJoins),
        (MainRev.add_mut now count s).2
          = (MainRev.add_mut now count s).1.current) := by
  refine ⟨?_, ?_, ?_⟩
  · intro now count s h
    simp [MainRev.add, h]
  · intro now count s h
    simp [MainRev.add, h]
  · intro now count s
    by_cases h : s.current_hour < now <;> simp [MainRev.add_mut, h]

/-- C4 witness: the fast path at wall-clock hour 2 on a counter stored at
hour 2 with live count 4, delta 7; and the stale-hour failure at hour 3. -/
theorem increment_return_value_witness :
    MainRev.add 3 7 ⟨2, [], 0⟩ = none
    ∧ MainRev.add 2 7 ⟨2, [], 4⟩
        = some ({ (⟨2, [], 4⟩ : GuildJoins) with current := (4 + 7) % 2 ^ 32 },
                4) :=
  ⟨increment_return_value.1 3 7 ⟨2, [], 0⟩ (by decide),
   increment_return_value.2.1 2 7 ⟨2, [], 4⟩ (by decide)⟩

/-- C4 counterexample: the claim says increment returns the post-increment
live count on the fast path too; `add` at delta 1 from live count 0 stores
1 but returns 0, the pre-increment value. -/
theorem increment_return_counterexample :
    MainRev.add 0 1 ⟨0, List.replicate 720 none, 0⟩
      = some (⟨0, List.replicate 720 none, 1⟩, 0)
    ∧ (0 : ℕ) ≠ 1 := by
  refine ⟨by decide, by decide⟩

/-! ### C7 -/

/-- C7 (amended): joins.rs's `update_to_latest_hour` asserts the
precondition `now_hour ≥ current_hour` and traps (`none`) whenever the
observed hour is behind the stored one; whenever it returns, the stored
hour index has not decreased (it equals `now_hour`).  main.rs performs no
such check: `add_mut` leaves the stored hour unchanged on every input
(so it never decreases, but a backward clock is silently treated as the
same-hour path rather than trapping). -/
theorem clock_regression_behavior :
    (∀ (fill : Bool) (now : ℕ) (s : GuildJoins), now < s.current_hour →
        Joins.update_to_latest_hour fill now s = none)
    ∧ (∀ (fill : Bool) (now : ℕ) (s t : GuildJoins),
        Joins.update_to_latest_hour fill now s = some t →
        s.current_hour ≤ t.current_hour ∧ t.current_hour = now)
    ∧ (∀ (now count : ℕ) (s : GuildJoins),
        (MainRev.add_mut now count s).1.current_hour = s.current_hour) := by
  refine ⟨?_, ?_, ?_⟩
  · intro fill now s h
    simp [Joins.update_to_latest_hour, h]
  · intro fill now s t h
    by_cases h1 : now < s.current_hour
    · simp [Joins.update_to_latest_hour, h1] at h
    · by_cases h2 : s.current_hour < now
      · simp only [Joins.update_to_latest_hour, h1, h2, if_true, if_false,
          ite_false, ite_true, Option.some.injEq] at h
        subst h
        rw [rollLoop_current_hour]
        simp only [Joins.rollOnce]
        omega
      · simp only [Joins.update_to_latest_hour, h1, h2, if_false, ite_false,
          Option.some.injEq] at h
        subst h
        omega
  · intro now count s
    by_cases h : s.current_hour < now <;> simp [MainRev.add_mut, h]

/-- C7 witness: the assert fires at wall-clock hour 3 on a counter stored
at hour 5; a successful same-hour call at hour 4 keeps the stored hour. -/
theorem clock_regression_behavior_witness :
    Joins.update_to_latest_hour true 3 ⟨5, [], 0⟩ = none
    ∧ ((⟨4, [], 0⟩ : GuildJoins).current_hour
          ≤ (⟨4, [], 0⟩ : GuildJoins).current_hour
        ∧ (⟨4, [], 0⟩ : GuildJoins).current_hour = 4) :=
  ⟨clock_regression_behavior.1 true 3 ⟨5, [], 0⟩ (by decide),
   clock_regression_behavior.2.1 true 4 ⟨4, [], 0⟩ ⟨4, [], 0⟩ (by decide)⟩

/-- C7 counterexample: the claim says every roll-forward fails fatally when
the observed hour (5) is behind the stored hour (10); main.rs's slow and
fast paths instead complete normally, adding the delta with the hour index
untouched. -/
theorem clock_regression_counterexample :
    MainRev.add_mut 5 1 ⟨10, List.replicate 720 none, 0⟩
      = (⟨10, List.replicate 720 none, 1⟩, 1)
    ∧ MainRev.add 5 1 ⟨10, List.replicate 720 none, 0⟩
      = some (⟨10, List.replicate 720 none, 1⟩, 0) := by
  refine ⟨by decide, by decide⟩

/-- main.rs `stats` panics (models as `none`) whenever exactly one sample
is recorded: `weighted_ind` is called at position 0 and indexes
`sorted[1]`, which is out of bounds. -/
theorem stats_single (s : GuildJoins) (x : ℕ)
    (h : s.log.filterMap id = [x]) : MainRev.stats s = none := by
  simp only [MainRev.stats, h]
  norm_num [List.insertionSort, List.orderedInsert, MainRev.weighted_ind,
    ratTrunc]

/-! ### C3 -/

/-- C3 (code bug): after a 1000-hour gap (`≥ BACKLOG`) main.rs's `add_mut`
does rebuild the ring as all-`None` — but then still writes the stale live
count into the newest slot, so the history is 719 gap markers plus
`Some(0)`, not all gap markers; the subsequent `stats` call then panics
(out-of-bounds index on a single sample) instead of returning `Empty`.
joins.rs's increment path diverges differently: it has no `≥ BACKLOG`
reset and fills every slot with `Some(0)` rather than gap markers. -/
theorem backlog_reset_behavior :
    MainRev.add_mut 1000 1 ⟨0, List.replicate 720 none, 0⟩
      = (⟨0, List.replicate 719 none ++ [some 0], 1⟩, 1)
    ∧ MainRev.stats ⟨0, List.replicate 719 none ++ [some 0], 1⟩ = none
    ∧ Joins.add 1000 1 ⟨0, List.replicate 720 none, 0⟩
      = some ⟨1000, List.replicate 720 (some 0), 1⟩ := by
  refine ⟨by decide, ?_, ?_⟩
  · apply stats_single _ 0
    show (List.replicate 719 (none : Option ℕ) ++ [some 0]).filterMap id = [0]
    rw [List.filterMap_append]
    simp [List.filterMap_replicate]
  · have hro : Joins.rollOnce (some 0) ⟨0, List.replicate 720 none, 0⟩
        = ⟨1, List.replicate 719 none ++ [some 0], 0⟩ := by
      simp [Joins.rollOnce, List.drop_replicate]
    have hrl : Joins.rollLoop (some 0) 999 ⟨1, List.replicate 719 none ++ [some 0], 0⟩
        = ⟨1000, List.replicate 720 (some 0), 0⟩ := by
      rw [rollLoop_full (some 0) 999 _ (by simp) (by simp) rfl]
      simp
    simp only [Joins.add, Joins.update_to_latest_hour]
    norm_num
    rw [hro]
    norm_num [hrl]

/-! ### C5 -/

/-- C5 (amended): joins.rs's `get_percentile` computes, for every nonempty
list and ratio in `[0,1]`, exactly the spec's linear interpolation between
the order statistics at the floor and ceil of `ratio × (n-1)`, with the
fractional part weighting the higher index; on `[10,20,30,40]` at ratio
`3/4` it yields `32.5`.  main.rs's `weighted_ind` instead weights the LOWER
index by the fractional part (`floor*frac + ceil*(1-frac)`), so main.rs's
upper quartile of the same data is `37.5`. -/
theorem percentile_characterization :
    (∀ (l : List ℚ) (p : ℚ), l ≠ [] → 0 ≤ p → p ≤ 1 →
        get_percentile l p = some (specPercentile l p))
    ∧ (∀ (sorted : List ℕ) (ind : ℚ) (a b : ℕ),
        0 ≤ ratTrunc ind →
        sorted[(ratTrunc ind).toNat]? = some a →
        sorted[(ratTrunc ind).toNat + 1]? = some b →
        MainRev.weighted_ind sorted ind
          = some ((a : ℚ) * ratFract ind + (b : ℚ) * (1 - ratFract ind)))
    ∧ get_percentile [10, 20, 30, 40] (3 / 4) = some (65 / 2)
    ∧ MainRev.stats ⟨0, [some 10, some 20, some 30, some 40], 0⟩
        = some (MainRev.Stats.Data 25 (25 / 2) 25 (75 / 2)) := by
  refine ⟨?_, ?_, ?_, ?_⟩
  · intro l p hne hp0 hp1
    have hn1 : 1 ≤ l.length := List.length_pos.mpr hne
    set m : ℕ := l.length - 1 with hmdef
    set x : ℚ := (m : ℚ) * p with hxdef
    have hx0 : 0 ≤ x := mul_nonneg (Nat.cast_nonneg m) hp0
    have hxm : x ≤ (m : ℚ) := by
      calc x = (m : ℚ) * p := rfl
        _ ≤ (m : ℚ) * 1 := mul_le_mul_of_nonneg_left hp1 (Nat.cast_nonneg m)
        _ = (m : ℚ) := mul_one _
    have htr : ratTrunc x = ⌊x⌋ := if_neg (not_lt.mpr hx0)
    have hfl0 : (0 : ℤ) ≤ ⌊x⌋ := Int.floor_nonneg.mpr hx0
    have hflm : ⌊x⌋ ≤ (m : ℤ) := by
      have h := Int.floor_le_floor hxm
      rwa [Int.floor_natCast] at h
    have hlow : ((⌊x⌋.toNat : ℕ) : ℤ) = ⌊x⌋ := Int.toNat_of_nonneg hfl0
    have hlowm : ⌊x⌋.toNat ≤ m := by
      have h : ((⌊x⌋.toNat : ℕ) : ℤ) ≤ (m : ℤ) := by rw [hlow]; exact hflm
      exact_mod_cast h
    have hie : l.isEmpty = false := List.isEmpty_eq_false.mpr hne
    have hlin : linterp 0 ((l.length - 1 : ℕ) : ℚ) p = x := by
      rw [hxdef, linterp]
      ring
    have hspos : p * ((l.length - 1 : ℕ) : ℚ) = x := by rw [hxdef]; ring
    have hfr : ratFract x = x - (⌊x⌋ : ℚ) := by rw [ratFract, htr]
    simp only [get_percentile, specPercentile, hlin, hspos, htr, hfr, hie,
      Bool.false_eq_true, if_false]
    by_cases hc : l.length ≤ ⌊x⌋.toNat + 1
    · have hlm : l.length = m + 1 := by omega
      have hjm : ⌊x⌋.toNat = m := by omega
      have hfloorz : ⌊x⌋ = (m : ℤ) := by rw [← hlow, hjm]
      have hmx : (m : ℚ) ≤ x := by
        have h := Int.floor_le x
        rw [hfloorz] at h
        exact_mod_cast h
      have hxeq : x = (m : ℚ) := le_antisymm hxm hmx
      have hceil : ⌈x⌉ = (m : ℤ) := by rw [hxeq]; exact Int.ceil_natCast m
      have hfrac0 : x - (⌊x⌋ : ℚ) = 0 := by
        rw [hfloorz, hxeq]
        push_cast
        ring
      have hmlt : m < l.length := by omega
      rw [if_pos hc, hfrac0, hceil, hjm, Int.toNat_natCast,
        List.getElem?_eq_getElem hmlt]
      simp
    · rw [if_neg hc]
      push_neg at hc
      have hlow_lt : ⌊x⌋.toNat < l.length := by omega
      have hhigh_lt : ⌊x⌋.toNat + 1 < l.length := by omega
      by_cases hf : x = (⌊x⌋ : ℚ)
      · have hceil : ⌈x⌉ = ⌊x⌋ := by rw [hf]; exact Int.ceil_intCast _
        have hfrac0 : x - (⌊x⌋ : ℚ) = 0 := sub_eq_zero.mpr hf
        rw [hceil, hfrac0, List.getElem?_eq_getElem hlow_lt,
          List.getElem?_eq_getElem hhigh_lt]
        simp [linterp]
      · have hlt : (⌊x⌋ : ℚ) < x :=
          lt_of_le_of_ne (Int.floor_le x) (Ne.symm hf)
        have hceil : ⌈x⌉ = ⌊x⌋ + 1 := by
          rw [Int.ceil_eq_iff]
          constructor
          · push_cast
            linarith
          · push_cast
            linarith [Int.lt_floor_add_one x]
        have htn : (⌊x⌋ + 1).toNat = ⌊x⌋.toNat + 1 := by omega
        rw [hceil, htn, List.getElem?_eq_getElem hlow_lt,
          List.getElem?_eq_getElem hhigh_lt]
        simp [linterp]
  · intro sorted ind a b h0 ha hb
    have hblt : (ratTrunc ind).toNat + 1 < sorted.length :=
      (List.getElem?_eq_some.mp hb).1
    have hc1 : ¬ (ratTrunc ind < 0) := not_lt.mpr h0
    have hz : (((ratTrunc ind).toNat : ℕ) : ℤ) = ratTrunc ind :=
      Int.toNat_of_nonneg h0
    have hcast : ((ratTrunc ind : ℤ) : ℚ) = (((ratTrunc ind).toNat : ℕ) : ℚ) := by
      exact_mod_cast hz.symm
    have hc2 : ¬ (((sorted.length : ℚ) - 1) < (ratTrunc ind : ℚ)) := by
      push_neg
      rw [hcast]
      have h : ((ratTrunc ind).toNat : ℚ) + 2 ≤ (sorted.length : ℚ) := by
        exact_mod_cast hblt
      linarith
    simp only [MainRev.weighted_ind, hc1, hc2, if_false, ite_false, ha, hb,
      Option.some_bind]
    rfl
  · have hfl : ⌊(9 / 4 : ℚ)⌋ = 2 := Int.floor_eq_iff.mpr ⟨by norm_num, by norm_num⟩
    have ht2 : Int.toNat 2 = 2 := rfl
    norm_num [get_percentile, linterp, ratTrunc, ratFract, hfl, ht2]
  · have hfl1 : ⌊(3 / 4 : ℚ)⌋ = 0 := Int.floor_eq_iff.mpr ⟨by norm_num, by norm_num⟩
    have hfl2 : ⌊(3 / 2 : ℚ)⌋ = 1 := Int.floor_eq_iff.mpr ⟨by norm_num, by norm_num⟩
    have hfl3 : ⌊(9 / 4 : ℚ)⌋ = 2 := Int.floor_eq_iff.mpr ⟨by norm_num, by norm_num⟩
    have ht0 : Int.toNat 0 = 0 := rfl
    have ht1 : Int.toNat 1 = 1 := rfl
    have ht2 : Int.toNat 2 = 2 := rfl
    norm_num [MainRev.stats, MainRev.weighted_ind, List.insertionSort,
      List.orderedInsert, ratTrunc, ratFract, hfl1, hfl2, hfl3, ht0, ht1,
      ht2]

/-- C5 witness: the refinement at `[10,20,30,40]` with ratio `3/4`, and the
main.rs interpolation at position `9/4` between the order statistics 30
and 40. -/
theorem percentile_characterization_witness :
    get_percentile [10, 20, 30, 40] (3 / 4)
        = some (specPercentile [10, 20, 30, 40] (3 / 4))
    ∧ MainRev.weighted_ind [10, 20, 30, 40] (9 / 4)
        = some (((30 : ℕ) : ℚ) * ratFract (9 / 4)
            + ((40 : ℕ) : ℚ) * (1 - ratFract (9 / 4))) :=
  ⟨percentile_characterization.1 [10, 20, 30, 40] (3 / 4) (by simp)
      (by norm_num) (by norm_num),
   percentile_characterization.2.1 [10, 20, 30, 40] (9 / 4) 30 40
      (by
        rw [ratTrunc, if_neg (by norm_num : ¬ (9 / 4 : ℚ) < 0)]
        exact Int.floor_nonneg.mpr (by norm_num))
      (by
        have hfl : ⌊(9 / 4 : ℚ)⌋ = 2 :=
          Int.floor_eq_iff.mpr ⟨by norm_num, by norm_num⟩
        rw [ratTrunc, if_neg (by norm_num : ¬ (9 / 4 : ℚ) < 0), hfl]
        rfl)
      (by
        have hfl : ⌊(9 / 4 : ℚ)⌋ = 2 :=
          Int.floor_eq_iff.mpr ⟨by norm_num, by norm_num⟩
        rw [ratTrunc, if_neg (by norm_num : ¬ (9 / 4 : ℚ) < 0), hfl]
        rfl)⟩

/-- C5 counterexample: the claim says the upper quartile of
`[10,20,30,40]` is `32.5`; main.rs's `stats` computes `37.5` for it
(`weighted_ind` weights the floor index by the fractional part). -/
theorem percentile_counterexample :
    MainRev.stats ⟨0, [some 10, some 20, some 30, some 40], 0⟩
      = some (MainRev.Stats.Data 25 (25 / 2) 25 (75 / 2))
    ∧ (75 / 2 : ℚ) ≠ 65 / 2 := by
  constructor
  · have hfl1 : ⌊(3 / 4 : ℚ)⌋ = 0 := Int.floor_eq_iff.mpr ⟨by norm_num, by norm_num⟩
    have hfl2 : ⌊(3 / 2 : ℚ)⌋ = 1 := Int.floor_eq_iff.mpr ⟨by norm_num, by norm_num⟩
    have hfl3 : ⌊(9 / 4 : ℚ)⌋ = 2 := Int.floor_eq_iff.mpr ⟨by norm_num, by norm_num⟩
    have ht0 : Int.toNat 0 = 0 := rfl
    have ht1 : Int.toNat 1 = 1 := rfl
    have ht2 : Int.toNat 2 = 2 := rfl
    norm_num [MainRev.stats, MainRev.weighted_ind, List.insertionSort,
      List.orderedInsert, ratTrunc, ratFract, hfl1, hfl2, hfl3, ht0, ht1,
      ht2]
  · norm_num

/-! ### C6 -/

/-- C6 (amended): main.rs's `is_abnormal` returns `false` whenever the
stats are `Empty`, and `stats` is `Empty` exactly when the history holds
no recorded sample.  joins.rs's `Stat` has no `Empty` variant: with no
recorded samples every quantile is the `get_percentile` fallback 0 and
`is_abnormal` degenerates to `live_count > 8` — it is NOT constantly
false on an empty history. -/
theorem abnormal_empty_behavior :
    (∀ c : ℕ, MainRev.Stats.is_abnormal MainRev.Stats.Empty c = false)
    ∧ (∀ s : GuildJoins, s.log.filterMap id = [] →
        MainRev.stats s = some MainRev.Stats.Empty)
    ∧ (∀ s : GuildJoins, s.log.filterMap id = [] →
        (Joins.stat_core s).map (fun st => st.is_abnormal)
          = some (decide (8 < s.current))) := by
  refine ⟨fun c => rfl, ?_, ?_⟩
  · intro s h
    simp [MainRev.stats, h, List.insertionSort]
  · intro s h
    simp only [Joins.stat_core, h, List.map_nil, List.insertionSort]
    by_cases hcur : s.current ≤ 8
    · have h8 : ¬ 8 < s.current := by omega
      simp [get_percentile, Joins.Stat.is_abnormal, hcur, h8]
    · have h8 : 8 < s.current := by omega
      have h5 : (0 : ℚ) * 2 + 5 < (s.current : ℚ) := by
        have h9 : (8 : ℚ) < (s.current : ℚ) := by exact_mod_cast h8
        linarith
      simp [get_percentile, Joins.Stat.is_abnormal, hcur, h8, h5]
      omega

/-- C6 witness: an all-empty log under main.rs yields `Empty` stats, and
under joins.rs the anomaly flag collapses to the live-count test. -/
theorem abnormal_empty_behavior_witness :
    MainRev.stats ⟨0, [], 0⟩ = some MainRev.Stats.Empty
    ∧ (Joins.stat_core ⟨0, [], 20⟩).map (fun st => st.is_abnormal)
        = some (decide (8 < (⟨0, [], 20⟩ : GuildJoins).current)) :=
  ⟨abnormal_empty_behavior.2.1 ⟨0, [], 0⟩ rfl,
   abnormal_empty_behavior.2.2 ⟨0, [], 20⟩ rfl⟩

/-- C6 counterexample: the claim says the anomaly predicate is false
whenever the history has no recorded samples; joins.rs's `Stat` computed
from a 720-gap-marker history with live count 20 is flagged abnormal. -/
theorem abnormal_empty_counterexample :
    (Joins.stat_core ⟨0, List.replicate 720 none, 20⟩).map
        (fun st => st.is_abnormal) = some true
    ∧ (List.replicate 720 (none : Option ℕ)).filterMap id = [] := by
  have hfm : (List.replicate 720 (none : Option ℕ)).filterMap id = [] := by
    simp [List.filterMap_replicate]
  refine ⟨?_, hfm⟩
  simp only [Joins.stat_core, hfm, List.map_nil, List.insertionSort]
  norm_num [get_percentile, Joins.Stat.is_abnormal]

/-! ### C8 -/

/-- C8 (confirmed): persisting a counter and loading the record restores
the `(current_hour, history, live_count)` triple exactly: main.rs's `load`
is unconditionally inverse to the serialization, and joins.rs's `read`
(which additionally rolls the counter forward to the wall-clock hour while
loading) restores it whenever the load happens in the stored hour. -/
theorem persistence_roundtrip :
    (∀ s : GuildJoins, MainRev.load (encodeGuildJoins s) = some s)
    ∧ (∀ (s : GuildJoins) (now : ℕ), now = s.current_hour →
        Joins.read (encodeGuildJoins s) now = some s) := by
  have hdec : ∀ s : GuildJoins, decodeGuildJoins (encodeGuildJoins s) = some s := by
    intro s
    show (decodeLog (s.log.map encodeEntry)).map
        (fun lg => (⟨s.current_hour, lg, s.current⟩ : GuildJoins)) = some s
    rw [decodeLog_encode]
    rfl
  refine ⟨fun s => hdec s, ?_⟩
  intro s now h
  subst h
  simp only [Joins.read, hdec]
  simp [Joins.update_to_latest_hour]

/-- C8 witness: round-trip at the concrete counter
`(hour 7, [gap, Some 3], live 4)` loaded at hour 7. -/
theorem persistence_roundtrip_witness :
    Joins.read (encodeGuildJoins ⟨7, [none, some 3], 4⟩) 7
      = some ⟨7, [none, some 3], 4⟩ :=
  persistence_roundtrip.2 ⟨7, [none, some 3], 4⟩ 7 rfl

/-! ### C9 -/

/-- C9 (confirmed): for every ratio, `get_percentile` returns 5 on the
singleton `[5]` and the defined fallback 0 (not an error) on `[]`. -/
theorem percentile_singleton_empty :
    ∀ ratio : ℚ, get_percentile [5] ratio = some 5
      ∧ get_percentile [] ratio = some 0 := by
  intro r
  refine ⟨?_, rfl⟩
  have hlin : linterp 0 (0 : ℚ) r = 0 := by
    simp [linterp]
  simp [get_percentile, hlin, ratTrunc]

/-! ### C10 -/

/-- C10 (confirmed): joins.rs's predicate is
`live_count > 8 ∧ live_count > uq·2 + 5`; main.rs's predicate is
`false` on `Empty` and `live_count > uq·5` on data, with no absolute
floor. -/
theorem abnormal_rule_constants :
    (∀ st : Joins.Stat, st.is_abnormal = true
        ↔ (8 < st.current ∧ st.uq * 2 + 5 < (st.current : ℚ)))
    ∧ (∀ c : ℕ, MainRev.Stats.is_abnormal MainRev.Stats.Empty c = false)
    ∧ (∀ (average lq median uq : ℚ) (c : ℕ),
        MainRev.Stats.is_abnormal (MainRev.Stats.Data average lq median uq) c
            = true
          ↔ uq * 5 < (c : ℚ)) := by
  refine ⟨?_, fun c => rfl, ?_⟩
  · intro st
    by_cases h : st.current ≤ 8
    · have h8 : ¬ 8 < st.current := by omega
      simp [Joins.Stat.is_abnormal, h, h8]
    · have h8 : 8 < st.current := by omega
      simp [Joins.Stat.is_abnormal, h, h8]
  · intro average lq median uq c
    simp [MainRev.Stats.is_abnormal]
